import Mathlib

/-!
Shallow embedding of the plagiarism-analyst application and proofs about it.

Strings manipulated character by character are embedded as `List Char`
(`String.data` converts a Lean string literal); strings only compared as a
whole stay `String`.  JavaScript truthiness of a string is embedded as
comparison with the empty string, and absent/optional JavaScript values as
`Option`.  External collaborators (the LLM endpoint, `JSON.parse`, the PDF
parsing library) are parameters or abstract inputs of the embedded
functions; everything the repository itself computes is embedded
executably and faithfully to the source.
-/

/-! ## Data model (types.ts) -/

inductive SourceType where
  | paper
  | book
  | website
  | thesis
  | other
deriving DecidableEq, Repr

def sourceTypeStr : SourceType → List Char
  | SourceType.paper => "paper".data
  | SourceType.book => "book".data
  | SourceType.website => "website".data
  | SourceType.thesis => "thesis".data
  | SourceType.other => "other".data

structure ReferenceItem where
  id : String
  sourceType : SourceType
  text : String
  isExpanded : Bool
deriving DecidableEq, Repr

/-! ## String helpers shared by several components -/

/-- Whitespace for JavaScript's `String.prototype.trim` (restricted to the
ASCII whitespace characters that can actually occur here). -/
def isSpaceChar (c : Char) : Bool :=
  c == ' ' || c == '\t' || c == '\n' || c == '\r' || c == '\x0b' || c == '\x0c'

/-- Remove leading and trailing whitespace from a character list. -/
def trimChars (l : List Char) : List Char :=
  ((l.dropWhile isSpaceChar).reverse.dropWhile isSpaceChar).reverse

/-- JavaScript `s.trim()`. -/
def jsTrim (s : String) : String :=
  String.mk (trimChars s.data)

/-! ## Reference store operations (components/ReferenceList.tsx) -/

/-- JavaScript `s.padStart(n, c)` for a single pad character. -/
def padStart (s : String) (n : Nat) (c : Char) : String :=
  String.mk (List.replicate (n - s.length) c) ++ s

/-- `addReference` from ReferenceList.tsx: appends a fresh record whose id is
built from the current list length. -/
def addReference (references : List ReferenceItem) : List ReferenceItem :=
  references ++
    [⟨"REF-" ++ padStart (toString (references.length + 1)) 3 '0',
      SourceType.paper, "", true⟩]

/-- The four fields of a `ReferenceItem`, for the dynamic-field update. -/
inductive RefField where
  | fieldId
  | fieldSourceType
  | fieldText
  | fieldIsExpanded
deriving DecidableEq

def RefField.Val : RefField → Type
  | RefField.fieldId => String
  | RefField.fieldSourceType => SourceType
  | RefField.fieldText => String
  | RefField.fieldIsExpanded => Bool

/-- The spread `{...r, [field]: value}` of ReferenceList.tsx. -/
def setField (r : ReferenceItem) : (f : RefField) → f.Val → ReferenceItem
  | RefField.fieldId, v => ⟨v, r.sourceType, r.text, r.isExpanded⟩
  | RefField.fieldSourceType, v => ⟨r.id, v, r.text, r.isExpanded⟩
  | RefField.fieldText, v => ⟨r.id, r.sourceType, v, r.isExpanded⟩
  | RefField.fieldIsExpanded, v => ⟨r.id, r.sourceType, r.text, v⟩

def getField (r : ReferenceItem) : (f : RefField) → f.Val
  | RefField.fieldId => r.id
  | RefField.fieldSourceType => r.sourceType
  | RefField.fieldText => r.text
  | RefField.fieldIsExpanded => r.isExpanded

/-- `updateReference` from ReferenceList.tsx: copy the array and replace the
record at `index` by a copy with one field changed.  (Out-of-range indices,
which the UI never produces, leave the list unchanged.) -/
def updateReference (references : List ReferenceItem) (index : Nat)
    (f : RefField) (v : f.Val) : List ReferenceItem :=
  match references[index]? with
  | some r => references.set index (setField r f v)
  | none => references

/-- `removeReference` from ReferenceList.tsx:
`references.filter((_, i) => i !== index)`. -/
def removeReference (references : List ReferenceItem) (index : Nat) :
    List ReferenceItem :=
  references.eraseIdx index

/-! ## Analyze-action gating (App.tsx, handleAnalyze) -/

inductive AnalyzeStep where
  | reject (message : String)
  | invoke
deriving DecidableEq

/-- The validation prefix of `handleAnalyze` in App.tsx: either rejects with a
user-facing message before any network call, or proceeds to invoke the
analysis client. -/
def handleAnalyze (documentText : String) (references : List ReferenceItem)
    (useWebSearch : Bool) : AnalyzeStep :=
  if jsTrim documentText = "" then
    AnalyzeStep.reject "Please enter the document text."
  else
    let hasReferences :=
      decide (references.length > 0) && references.any (fun r => jsTrim r.text != "")
    if !hasReferences && !useWebSearch then
      AnalyzeStep.reject "Please add at least one reference text OR enable Web Search."
    else
      AnalyzeStep.invoke

/-! ## Risk color tiers (components/AnalysisView.tsx) -/

def getRiskColor (score : Int) : String :=
  if score < 20 then "text-green-600"
  else if score < 50 then "text-yellow-600"
  else if score < 80 then "text-orange-600"
  else "text-red-600"

/-! ## PDF text extraction (utils/pdfUtils.ts) -/

/-- A paginated document as the PDF library hands it to the code: either a
readable list of pages, each a list of text items (`item.str`), or a document
`getDocument`/`getPage`/`getTextContent` fails on. -/
inductive PdfDoc where
  | ok (pages : List (List String))
  | unreadable

/-- JavaScript `Array.prototype.join(sep)`. -/
def sepJoin (sep : List Char) : List (List Char) → List Char
  | [] => []
  | [x] => x
  | x :: y :: ys => x ++ sep ++ sepJoin sep (y :: ys)

/-- `extractTextFromPdf` from pdfUtils.ts: per page join the items with a
single space, append a blank-line terminator, and concatenate; any parsing
failure becomes the fixed error message. -/
def extractTextFromPdf : PdfDoc → Except String (List Char)
  | PdfDoc.unreadable =>
      Except.error "Failed to extract text from PDF. Please ensure it is a valid text-based PDF."
  | PdfDoc.ok pages =>
      Except.ok
        (List.flatten (pages.map (fun p => sepJoin [' '] (p.map String.data) ++ "\n\n".data)))

/-! ## Claim theorems -/

/-- C4: for every reference list, `add()` appends exactly one new record —
its id is "REF-" followed by the current length plus one, rendered in
decimal and left-padded with zeros to width 3, its source type is `paper`,
its text is empty and it starts expanded — and every existing record is
left untouched (the old list is a prefix of the new one). -/
theorem addReference_spec (references : List ReferenceItem) :
    (addReference references).length = references.length + 1
    ∧ (addReference references).take references.length = references
    ∧ (addReference references)[references.length]? =
        some ⟨"REF-" ++ padStart (toString (references.length + 1)) 3 '0',
          SourceType.paper, "", true⟩ := by
  refine ⟨?_, ?_, ?_⟩ <;> simp [addReference]

/-- C8: the result view's risk-to-color mapping returns the red tier iff the
score is at least 80, orange iff in [50,80), yellow iff in [20,50), green iff
below 20; in particular 19 is green, 20 yellow, 49 yellow, 50 orange, 79
orange and 80 red. -/
theorem getRiskColor_spec (score : Int) :
    (getRiskColor score = "text-red-600" ↔ 80 ≤ score)
    ∧ (getRiskColor score = "text-orange-600" ↔ 50 ≤ score ∧ score < 80)
    ∧ (getRiskColor score = "text-yellow-600" ↔ 20 ≤ score ∧ score < 50)
    ∧ (getRiskColor score = "text-green-600" ↔ score < 20)
    ∧ getRiskColor 19 = "text-green-600" ∧ getRiskColor 20 = "text-yellow-600"
    ∧ getRiskColor 49 = "text-yellow-600" ∧ getRiskColor 50 = "text-orange-600"
    ∧ getRiskColor 79 = "text-orange-600" ∧ getRiskColor 80 = "text-red-600" := by
  unfold getRiskColor
  refine ⟨?_, ?_, ?_, ?_, by decide, by decide, by decide, by decide, by decide, by decide⟩ <;>
    split_ifs <;> simp_all <;> omega

/-- C10: starting from the empty store, the sequence add, add, remove index
0, add leaves two records that both carry the id "REF-002": the id generated
by the final `add()` collides with the id of a record already present. -/
theorem addReference_duplicate_id :
    (addReference (removeReference (addReference (addReference [])) 0)).map ReferenceItem.id
        = ["REF-002", "REF-002"]
    ∧ ¬ ((addReference (removeReference (addReference (addReference [])) 0)).map
          ReferenceItem.id).Nodup := by
  decide

/-- C5: for every reference list, in-range index, field and value, `update`
keeps the length, leaves every other position untouched, and replaces exactly
the selected field of the record at the index, preserving its other fields. -/
theorem updateReference_spec (references : List ReferenceItem) (i : Nat)
    (f : RefField) (v : f.Val) (hi : i < references.length) :
    (updateReference references i f v).length = references.length
    ∧ (∀ k, k ≠ i → (updateReference references i f v)[k]? = references[k]?)
    ∧ ∃ r, references[i]? = some r
        ∧ (updateReference references i f v)[i]? = some (setField r f v)
        ∧ getField (setField r f v) f = v
        ∧ (f ≠ RefField.fieldId → (setField r f v).id = r.id)
        ∧ (f ≠ RefField.fieldSourceType → (setField r f v).sourceType = r.sourceType)
        ∧ (f ≠ RefField.fieldText → (setField r f v).text = r.text)
        ∧ (f ≠ RefField.fieldIsExpanded → (setField r f v).isExpanded = r.isExpanded) := by
  have hr : references[i]? = some references[i] := List.getElem?_eq_getElem hi
  refine ⟨?_, ?_, references[i], hr, ?_, ?_, ?_, ?_, ?_, ?_⟩
  · simp [updateReference, hr]
  · intro k hk
    simp [updateReference, hr, List.getElem?_set_ne (fun h => hk h.symm)]
  · simp [updateReference, hr, List.getElem?_set_self, hi]
  · cases f <;> rfl
  · cases f <;> simp [setField]
  · cases f <;> simp [setField]
  · cases f <;> simp [setField]
  · cases f <;> simp [setField]

/-- C5 witness: the theorem applied to a concrete one-element list. -/
theorem updateReference_spec_witness :
    (0 : Nat) < ([⟨"REF-001", SourceType.paper, "old", true⟩] : List ReferenceItem).length
    ∧ (updateReference [⟨"REF-001", SourceType.paper, "old", true⟩] 0
        RefField.fieldText "new").length
        = ([⟨"REF-001", SourceType.paper, "old", true⟩] : List ReferenceItem).length :=
  ⟨by decide,
   (updateReference_spec [⟨"REF-001", SourceType.paper, "old", true⟩] 0
      RefField.fieldText "new" (by decide)).1⟩

/-- C3: the analyze action rejects with a user message and performs no model
call exactly when its preconditions are unmet — empty (trimmed) document text
always rejects; no reference with non-empty trimmed text and web search off
rejects; otherwise, including zero references with web search enabled, the
analysis client is invoked. -/
theorem handleAnalyze_spec (documentText : String)
    (references : List ReferenceItem) (useWebSearch : Bool) :
    (jsTrim documentText = "" →
      handleAnalyze documentText references useWebSearch
        = AnalyzeStep.reject "Please enter the document text.")
    ∧ (jsTrim documentText ≠ "" → (∀ r ∈ references, jsTrim r.text = "") →
        useWebSearch = false →
        handleAnalyze documentText references useWebSearch
          = AnalyzeStep.reject "Please add at least one reference text OR enable Web Search.")
    ∧ (jsTrim documentText ≠ "" →
        ((∃ r ∈ references, jsTrim r.text ≠ "") ∨ useWebSearch = true) →
        handleAnalyze documentText references useWebSearch = AnalyzeStep.invoke)
    ∧ (jsTrim documentText ≠ "" → useWebSearch = true →
        handleAnalyze documentText [] useWebSearch = AnalyzeStep.invoke) := by
  refine ⟨?_, ?_, ?_, ?_⟩
  · intro hd
    simp [handleAnalyze, hd]
  · intro hd hall hw
    have hany : references.any (fun r => jsTrim r.text != "") = false := by
      simp only [List.any_eq_false]
      intro r hr
      simpa using hall r hr
    simp [handleAnalyze, hd, hany, hw]
  · intro hd hor
    rcases hor with ⟨r, hr, hne⟩ | hw
    · have hany : references.any (fun r => jsTrim r.text != "") = true :=
        List.any_eq_true.mpr ⟨r, hr, by simpa using hne⟩
      have hlen : 0 < references.length := List.length_pos.mpr (by rintro rfl; cases hr)
      simp [handleAnalyze, hd, hany, hlen]
    · simp [handleAnalyze, hd, hw]
  · intro hd hw
    simp [handleAnalyze, hd, hw]

/-- C3 witness: with a non-empty document, no references and web search on,
the model is invoked. -/
theorem handleAnalyze_spec_witness :
    (jsTrim "doc" ≠ "" ∧ (true : Bool) = true)
    ∧ handleAnalyze "doc" [] true = AnalyzeStep.invoke :=
  ⟨⟨by decide, rfl⟩,
   (handleAnalyze_spec "doc" [] true).2.2.1 (by decide) (Or.inr rfl)⟩

/-- Appending a terminator after every list element equals joining the
elements with that separator and adding one trailing separator when the list
is non-empty. -/
theorem flatten_term_eq_sepJoin (t : List Char) :
    ∀ xs : List (List Char),
      List.flatten (xs.map (fun x => x ++ t))
        = sepJoin t xs ++ (if xs = [] then [] else t)
  | [] => by simp [sepJoin]
  | [x] => by simp [sepJoin]
  | x :: y :: ys => by
      have ih := flatten_term_eq_sepJoin t (y :: ys)
      simp only [List.map_cons, List.flatten_cons] at ih ⊢
      rw [ih]
      simp [sepJoin, List.append_assoc]

/-- C9 counterexample: for the one-page document whose single text item is
"x", extraction yields "x\n\n" — not "x", which is what joining the pages by
blank lines alone would give. -/
theorem extractTextFromPdf_claim_cex :
    extractTextFromPdf (PdfDoc.ok [["x"]]) ≠ Except.ok ("x".data)
    ∧ extractTextFromPdf (PdfDoc.ok [["x"]]) = Except.ok ("x\n\n".data) := by
  refine ⟨fun h => ?_, rfl⟩
  exact absurd (Except.ok.inj h) (by decide)

/-- C9 (amended): extraction returns, over the pages in order, each page's
text items joined by a single space, the pages joined by blank lines with one
additional trailing blank line after the last page (the blank-line separator
is appended after every page, not only between pages); a document that cannot
be opened or parsed fails with the fixed message instructing the user to
supply a text-based PDF. -/
theorem extractTextFromPdf_spec (pages : List (List String)) :
    extractTextFromPdf (PdfDoc.ok pages)
      = Except.ok
          (sepJoin "\n\n".data (pages.map (fun p => sepJoin [' '] (p.map String.data)))
            ++ (if pages = [] then [] else "\n\n".data))
    ∧ extractTextFromPdf PdfDoc.unreadable
      = Except.error
          "Failed to extract text from PDF. Please ensure it is a valid text-based PDF." := by
  refine ⟨?_, rfl⟩
  simp only [extractTextFromPdf]
  rw [show pages.map (fun p => sepJoin [' '] (p.map String.data) ++ "\n\n".data)
        = (pages.map (fun p => sepJoin [' '] (p.map String.data))).map (fun x => x ++ "\n\n".data)
      by rw [List.map_map]; rfl]
  rw [flatten_term_eq_sepJoin]
  simp

/-! ## Web grounding sources (services/geminiService.ts) -/

structure WebInfo where
  uri : Option String
  title : Option String
deriving DecidableEq, Repr

structure GroundingChunk where
  web : Option WebInfo
deriving DecidableEq, Repr

structure WebSource where
  uri : String
  title : String
deriving DecidableEq, Repr

/-- The per-chunk part of the extraction in geminiService.ts: the filter
`c.web?.uri` (truthy: present and non-empty) fused with the map
`{uri: c.web.uri, title: c.web.title || c.web.uri}`. -/
def chunkSource (c : GroundingChunk) : Option WebSource :=
  match c.web with
  | none => none
  | some w =>
      match w.uri with
      | none => none
      | some u =>
          if u = "" then none
          else
            match w.title with
            | none => some ⟨u, u⟩
            | some t => some ⟨u, if t = "" then u else t⟩

def webSourcesOf (chunks : List GroundingChunk) : List WebSource :=
  chunks.filterMap chunkSource

/-- One `map.set(k, v)` step of a JavaScript `Map` represented as an
association list: an existing key keeps its position and gets the new value,
a new key is appended. -/
def mapInsert (m : List (String × WebSource)) (k : String) (v : WebSource) :
    List (String × WebSource) :=
  if m.any (fun p => p.1 == k) then
    m.map (fun p => if p.1 == k then (k, v) else p)
  else m ++ [(k, v)]

/-- `new Map(webSources.map(s => [s.uri, s]))` from geminiService.ts. -/
def buildUriMap (l : List WebSource) : List (String × WebSource) :=
  l.foldl (fun m s => mapInsert m s.uri s) []

/-- The `webSources` attached to the analysis result:
`Array.from(new Map(...).values())`. -/
def computeWebSources (chunks : List GroundingChunk) : List WebSource :=
  (buildUriMap (webSourcesOf chunks)).map Prod.snd

/-- Duplicate-free list of the URIs in first-seen order (declarative
counterpart of the key order of a JavaScript `Map`). -/
def dedupFirstSeen : List String → List String
  | [] => []
  | u :: us => u :: (dedupFirstSeen us).filter (fun v => v != u)

/-- The last entry of `l` carrying the given URI. -/
def lastWithUri (u : String) (l : List WebSource) : Option WebSource :=
  (l.filter (fun s => s.uri == u)).getLast?

/-- Declarative deduplication: URIs in first-seen order, each mapped to the
last entry bearing that URI. -/
def specDedupByUri (l : List WebSource) : List WebSource :=
  (dedupFirstSeen (l.map WebSource.uri)).filterMap (fun u => lastWithUri u l)

theorem mem_dedupFirstSeen (u : String) :
    ∀ us, u ∈ dedupFirstSeen us ↔ u ∈ us
  | [] => Iff.rfl
  | v :: vs => by
      simp only [dedupFirstSeen, List.mem_cons, List.mem_filter,
        mem_dedupFirstSeen u vs, bne_iff_ne, ne_eq]
      by_cases h : u = v <;> simp [h]

theorem dedupFirstSeen_append_single (u : String) :
    ∀ us, dedupFirstSeen (us ++ [u])
      = if u ∈ us then dedupFirstSeen us else dedupFirstSeen us ++ [u]
  | [] => by simp [dedupFirstSeen]
  | v :: vs => by
      have ih := dedupFirstSeen_append_single u vs
      by_cases h : u ∈ vs
      · rw [List.cons_append]
        simp only [dedupFirstSeen, ih, if_pos h]
        simp [List.mem_cons, h]
      · by_cases hv : u = v
        · subst hv
          rw [List.cons_append]
          simp only [dedupFirstSeen, ih, if_neg h]
          rw [List.filter_append]
          simp [List.mem_cons]
        · rw [List.cons_append]
          simp only [dedupFirstSeen, ih, if_neg h]
          rw [List.filter_append]
          have : (u ∈ v :: vs) = False := by
            simp [List.mem_cons, hv, h]
          simp [this, hv, Ne.symm hv]

theorem lastWithUri_isSome {u : String} {l : List WebSource}
    (h : u ∈ l.map WebSource.uri) : ∃ s, lastWithUri u l = some s := by
  rcases List.mem_map.mp h with ⟨s, hs, rfl⟩
  have hmem : s ∈ l.filter (fun x => x.uri == s.uri) :=
    List.mem_filter.mpr ⟨hs, by simp⟩
  have hne : l.filter (fun x => x.uri == s.uri) ≠ [] := List.ne_nil_of_mem hmem
  unfold lastWithUri
  cases hgl : (l.filter (fun x => x.uri == s.uri)).getLast? with
  | none => exact absurd (List.getLast?_eq_none_iff.mp hgl) hne
  | some w => exact ⟨w, rfl⟩

theorem lastWithUri_append (u : String) (l : List WebSource) (x : WebSource) :
    lastWithUri u (l ++ [x])
      = if x.uri = u then some x else lastWithUri u l := by
  unfold lastWithUri
  rw [List.filter_append]
  by_cases h : x.uri = u
  · simp [h, List.getLast?_concat]
  · simp [h]

theorem map_fst_filterMap_keys (f : String → Option (String × WebSource)) :
    ∀ D : List String, (∀ u ∈ D, ∃ s, f u = some (u, s)) →
      (D.filterMap f).map Prod.fst = D
  | [], _ => rfl
  | v :: vs, hf => by
      rcases hf v (List.mem_cons_self v vs) with ⟨s, hs⟩
      simp only [List.filterMap_cons, hs, List.map_cons]
      rw [map_fst_filterMap_keys f vs (fun u hu => hf u (List.mem_cons_of_mem _ hu))]

theorem filterMap_ext_mem (f g : String → Option (String × WebSource)) :
    ∀ D : List String, (∀ u ∈ D, f u = g u) → D.filterMap f = D.filterMap g
  | [], _ => rfl
  | v :: vs, h => by
      simp only [List.filterMap_cons, h v (List.mem_cons_self v vs)]
      rw [filterMap_ext_mem f g vs (fun u hu => h u (List.mem_cons_of_mem _ hu))]

theorem map_filterMap_replace (k : String) (x : WebSource)
    (f : String → Option (String × WebSource)) :
    ∀ D : List String, (∀ u ∈ D, ∃ s, f u = some (u, s)) →
      (D.filterMap f).map (fun p => if p.1 == k then (k, x) else p)
        = D.filterMap (fun u => if k = u then some (u, x) else f u)
  | [], _ => rfl
  | v :: vs, hf => by
      rcases hf v (List.mem_cons_self v vs) with ⟨s, hs⟩
      have ih := map_filterMap_replace k x f vs
        (fun u hu => hf u (List.mem_cons_of_mem _ hu))
      by_cases h : v = k
      · subst h
        simp only [List.filterMap_cons, hs, List.map_cons, if_pos rfl, beq_self_eq_true,
          if_true]
        rw [ih]
      · simp only [List.filterMap_cons, hs, List.map_cons]
        rw [if_neg (by simpa using h), if_neg (fun hh => h hh.symm), ih]

theorem buildUriMap_append_single (l : List WebSource) (x : WebSource) :
    buildUriMap (l ++ [x]) = mapInsert (buildUriMap l) x.uri x := by
  simp [buildUriMap, List.foldl_append]

/-- Invariant: the association list behind the JavaScript `Map` lists the
URIs in first-seen order, each paired with the last entry bearing it. -/
theorem buildUriMap_eq (l : List WebSource) :
    buildUriMap l
      = (dedupFirstSeen (l.map WebSource.uri)).filterMap
          (fun u => (lastWithUri u l).map (fun s => (u, s))) := by
  induction l using List.reverseRecOn with
  | nil => rfl
  | append_singleton l x ih =>
      have hF : ∀ u ∈ dedupFirstSeen (l.map WebSource.uri),
          ∃ s, (lastWithUri u l).map (fun s => (u, s)) = some (u, s) := by
        intro u hu
        rcases lastWithUri_isSome ((mem_dedupFirstSeen u _).mp hu) with ⟨s, hs⟩
        exact ⟨s, by rw [hs]; rfl⟩
      have hkeys : (buildUriMap l).map Prod.fst = dedupFirstSeen (l.map WebSource.uri) := by
        rw [ih]; exact map_fst_filterMap_keys _ _ hF
      have hany : (buildUriMap l).any (fun p => p.1 == x.uri)
          = decide (x.uri ∈ l.map WebSource.uri) := by
        rcases hb : (buildUriMap l).any (fun p => p.1 == x.uri) with _ | _
        · rw [List.any_eq_false] at hb
          symm
          rw [decide_eq_false_iff_not]
          intro hmem
          have : x.uri ∈ (buildUriMap l).map Prod.fst := by
            rw [hkeys]; exact (mem_dedupFirstSeen _ _).mpr hmem
          rcases List.mem_map.mp this with ⟨p, hp, hpe⟩
          exact hb p hp (by simp [hpe])
        · rw [List.any_eq_true] at hb
          rcases hb with ⟨p, hp, hpe⟩
          symm
          rw [decide_eq_true_iff]
          rw [beq_iff_eq] at hpe
          have : p.1 ∈ (buildUriMap l).map Prod.fst := List.mem_map_of_mem _ hp
          rw [hkeys, hpe] at this
          exact (mem_dedupFirstSeen _ _).mp this
      rw [buildUriMap_append_single, mapInsert, hany, List.map_append]
      simp only [List.map_cons, List.map_nil]
      rw [dedupFirstSeen_append_single]
      have hlast : ∀ u, lastWithUri u (l ++ [x])
          = if x.uri = u then some x else lastWithUri u l := fun u => lastWithUri_append u l x
      by_cases hmem : x.uri ∈ l.map WebSource.uri
      · rw [if_pos hmem, if_pos (by simpa using hmem), ih,
          map_filterMap_replace x.uri x _ _ hF]
        apply filterMap_ext_mem
        intro u hu
        rw [hlast u]
        by_cases h : x.uri = u
        · rw [if_pos h, if_pos h]; rfl
        · rw [if_neg h, if_neg h]
      · rw [if_neg hmem, if_neg (by simpa using hmem), List.filterMap_append, ih]
        have h1 : (dedupFirstSeen (l.map WebSource.uri)).filterMap
            (fun u => (lastWithUri u (l ++ [x])).map (fun s => (u, s)))
            = (dedupFirstSeen (l.map WebSource.uri)).filterMap
              (fun u => (lastWithUri u l).map (fun s => (u, s))) := by
          apply filterMap_ext_mem
          intro u hu
          rw [hlast u, if_neg]
          intro hh
          exact hmem (by rw [hh]; exact (mem_dedupFirstSeen u _).mp hu)
        rw [h1]
        congr 1
        simp [hlast x.uri]

/-- C2 counterexample: for the grounding chunks of the claim's example, the
code does NOT keep the first occurrence per URI — the resulting list is not
the claimed one whose title is "A" (the title kept is "A2", from the last
duplicate). -/
theorem computeWebSources_claim_cex :
    computeWebSources
        [⟨some ⟨some "a", some "A"⟩⟩, ⟨some ⟨some "a", some "A2"⟩⟩, ⟨some ⟨none, none⟩⟩]
      ≠ [⟨"a", "A"⟩] := by
  decide

/-- C2 (amended): the grounding chunks are filtered to those with a web URI,
mapped to uri/title with the title falling back to the uri, and deduplicated
by URI with the URIs kept in first-seen order but each URI carrying the LAST
occurrence's entry (JavaScript `Map` semantics); on the example the result is
[{uri:"a",title:"A2"}]. -/
theorem computeWebSources_spec (chunks : List GroundingChunk) :
    computeWebSources chunks = specDedupByUri (webSourcesOf chunks)
    ∧ computeWebSources
        [⟨some ⟨some "a", some "A"⟩⟩, ⟨some ⟨some "a", some "A2"⟩⟩, ⟨some ⟨none, none⟩⟩]
      = [⟨"a", "A2"⟩] := by
  refine ⟨?_, by decide⟩
  unfold computeWebSources specDedupByUri
  rw [buildUriMap_eq, List.map_filterMap]
  congr 1
  funext u
  cases lastWithUri u (webSourcesOf chunks) <;> rfl

/-! ## Prompt builder: reference serialization (services/geminiService.ts) -/

/-- Whether `p` is an initial segment of `l`. -/
def leadsWith : List Char → List Char → Bool
  | [], _ => true
  | _ :: _, [] => false
  | c :: cs, d :: ds => c == d && leadsWith cs ds

/-- Number of positions of `l` at which the pattern `p` starts (overlapping
occurrences all counted). -/
def countSub (p : List Char) : List Char → Nat
  | [] => 0
  | c :: cs => (if leadsWith p (c :: cs) then 1 else 0) + countSub p cs

theorem leadsWith_length : ∀ p l : List Char, leadsWith p l = true → p.length ≤ l.length
  | [], _, _ => Nat.zero_le _
  | _ :: _, [], h => by simp [leadsWith] at h
  | c :: cs, d :: ds, h => by
      simp only [leadsWith, Bool.and_eq_true] at h
      simpa using leadsWith_length cs ds h.2

theorem leadsWith_append_left :
    ∀ (p a : List Char), p.length ≤ a.length → ∀ b, leadsWith p (a ++ b) = leadsWith p a
  | [], _, _, _ => by simp [leadsWith]
  | c :: cs, [], h, _ => by simp at h
  | c :: cs, x :: xs, h, b => by
      simp only [List.cons_append, List.append_eq, leadsWith]
      rw [leadsWith_append_left cs xs (by simpa using h) b]

theorem leadsWith_getElem :
    ∀ (p l : List Char), leadsWith p l = true → ∀ i, i < p.length → l[i]? = p[i]?
  | [], _, _, i, hi => absurd hi (by simp)
  | c :: cs, [], h, _, _ => by simp [leadsWith] at h
  | c :: cs, d :: ds, h, i, hi => by
      simp only [leadsWith, Bool.and_eq_true, beq_iff_eq] at h
      cases i with
      | zero => simp [h.1]
      | succ n =>
          simp only [List.getElem?_cons_succ]
          exact leadsWith_getElem cs ds h.2 n (by simpa using hi)

theorem mem_of_getElem_some {l : List Char} {i : Nat} {c : Char}
    (h : l[i]? = some c) : c ∈ l := by
  induction l generalizing i with
  | nil => simp at h
  | cons x xs ih =>
      cases i with
      | zero => simp at h; simp [h]
      | succ n => exact List.mem_cons_of_mem _ (ih (by simpa using h))

/-- No occurrence of the pattern crosses the append boundary when the first
character of the right part does not occur in the pattern. -/
theorem countSub_append_keep (p : List Char) (hp : p ≠ []) :
    ∀ a b : List Char, (∀ c, b[0]? = some c → c ∉ p) →
      countSub p (a ++ b) = countSub p a + countSub p b
  | [], b, _ => by simp [countSub]
  | x :: xs, b, hb => by
      have ih := countSub_append_keep p hp xs b hb
      have hkey : leadsWith p (x :: (xs ++ b)) = leadsWith p (x :: xs) := by
        rcases Nat.lt_or_ge (x :: xs).length p.length with hlt | hge
        · have h1 : leadsWith p (x :: xs) = false := by
            cases hl : leadsWith p (x :: xs)
            · rfl
            · exact absurd (leadsWith_length p _ hl) (by omega)
          have h2 : leadsWith p (x :: (xs ++ b)) = false := by
            cases hl : leadsWith p (x :: (xs ++ b))
            · rfl
            · exfalso
              have hl' : leadsWith p ((x :: xs) ++ b) = true := hl
              have hg := leadsWith_getElem p _ hl' (x :: xs).length hlt
              rw [List.getElem?_append_right (Nat.le_refl _)] at hg
              simp only [Nat.sub_self] at hg
              cases hc : p[(x :: xs).length]? with
              | none => rw [hc] at hg; exact (List.getElem?_eq_none_iff.mp hc).not_lt hlt
              | some c =>
                  rw [hc] at hg
                  exact hb c hg (mem_of_getElem_some hc)
          rw [h1, h2]
        · exact leadsWith_append_left p (x :: xs) hge b
      simp only [List.cons_append, List.append_eq, countSub, hkey, ih]
      omega

/-- No occurrence of the pattern crosses the append boundary when the last
character of the left part does not occur in the pattern. -/
theorem countSub_append_last (p : List Char) (hp : p ≠ []) :
    ∀ a b : List Char, (∀ c, a.getLast? = some c → c ∉ p) →
      countSub p (a ++ b) = countSub p a + countSub p b
  | [], b, _ => by simp [countSub]
  | x :: xs, b, ha => by
      have htail : ∀ c, xs.getLast? = some c → c ∉ p := by
        intro c hc
        apply ha
        cases xs with
        | nil => simp at hc
        | cons y ys => rw [List.getLast?_cons_cons]; exact hc
      have ih := countSub_append_last p hp xs b htail
      have hkey : leadsWith p (x :: (xs ++ b)) = leadsWith p (x :: xs) := by
        rcases Nat.lt_or_ge (x :: xs).length p.length with hlt | hge
        · have h1 : leadsWith p (x :: xs) = false := by
            cases hl : leadsWith p (x :: xs)
            · rfl
            · exact absurd (leadsWith_length p _ hl) (by omega)
          have h2 : leadsWith p (x :: (xs ++ b)) = false := by
            cases hl : leadsWith p (x :: (xs ++ b))
            · rfl
            · exfalso
              have hl' : leadsWith p ((x :: xs) ++ b) = true := hl
              have hn : (x :: xs).length - 1 < p.length := by
                simp only [List.length_cons] at hlt ⊢; omega
              have hg := leadsWith_getElem p _ hl' ((x :: xs).length - 1) hn
              rw [List.getElem?_append] at hg
              rw [if_pos (by simp)] at hg
              have hgl : (x :: xs).getLast? = (x :: xs)[(x :: xs).length - 1]? := by
                rw [List.getLast?_eq_getElem?]
              cases hc : p[(x :: xs).length - 1]? with
              | none => rw [hc] at hg; exact (List.getElem?_eq_none_iff.mp hc).not_lt hn
              | some c =>
                  rw [hc] at hg
                  exact ha c (by rw [hgl, hg]) (mem_of_getElem_some hc)
          rw [h1, h2]
        · exact leadsWith_append_left p (x :: xs) hge b
      simp only [List.cons_append, List.append_eq, countSub, hkey, ih]
      omega

def headNotIn (p b : List Char) : Bool :=
  match b with
  | [] => true
  | c :: _ => !(decide (c ∈ p))

def lastNotIn (p a : List Char) : Bool :=
  match a.getLast? with
  | none => true
  | some c => !(decide (c ∈ p))

theorem countSub_append_keepB (p : List Char) (hp : p ≠ []) (a b : List Char)
    (hb : headNotIn p b = true) :
    countSub p (a ++ b) = countSub p a + countSub p b := by
  apply countSub_append_keep p hp a b
  intro c hc
  cases b with
  | nil => simp at hc
  | cons d ds =>
      simp only [List.getElem?_cons_zero, Option.some.injEq] at hc
      subst hc
      simpa [headNotIn] using hb

theorem countSub_append_lastB (p : List Char) (hp : p ≠ []) (a b : List Char)
    (ha : lastNotIn p a = true) :
    countSub p (a ++ b) = countSub p a + countSub p b := by
  apply countSub_append_last p hp a b
  intro c hc
  unfold lastNotIn at ha
  rw [hc] at ha
  simpa using ha

def refStartMark : List Char := "---REFERENCE_START---".data

/-- One serialized reference block of the prompt template in
geminiService.ts (the template literal with its three interpolated fields;
the parenthesization of the concatenation is semantically irrelevant and
chosen for the proofs). -/
def refBlock (r : ReferenceItem) : List Char :=
  "\n---REFERENCE_START---\nID: ".data
    ++ (r.id.data
    ++ ("\nSOURCE_TYPE: ".data
    ++ (sourceTypeStr r.sourceType
    ++ ("\nTEXT:\n".data
    ++ (r.text.data
    ++ "\n---REFERENCE_END---\n".data)))))

/-- `references.map(...).join('\n')` from geminiService.ts. -/
def formattedReferences (references : List ReferenceItem) : List Char :=
  sepJoin "\n".data (references.map refBlock)

/-- The references section as interpolated into the prompt:
`formattedReferences.trim() ? formattedReferences : "(No local references provided)"`. -/
def refsSection (references : List ReferenceItem) : List Char :=
  if trimChars (formattedReferences references) = [] then
    "(No local references provided)".data
  else formattedReferences references

theorem mem_dropWhile_of_not {c : Char} {l : List Char}
    (hc : isSpaceChar c = false) (h : c ∈ l) : c ∈ l.dropWhile isSpaceChar := by
  induction l with
  | nil => cases h
  | cons x xs ih =>
      by_cases hx : isSpaceChar x = true
      · rw [List.dropWhile_cons_of_pos hx]
        apply ih
        rcases List.mem_cons.mp h with rfl | hmem
        · rw [hx] at hc; cases hc
        · exact hmem
      · rw [List.dropWhile_cons_of_neg hx]
        exact h

theorem trimChars_ne_nil {c : Char} {l : List Char}
    (hc : isSpaceChar c = false) (h : c ∈ l) : trimChars l ≠ [] := by
  unfold trimChars
  intro he
  have h1 : c ∈ l.dropWhile isSpaceChar := mem_dropWhile_of_not hc h
  have h2 : c ∈ (l.dropWhile isSpaceChar).reverse := List.mem_reverse.mpr h1
  have h3 := mem_dropWhile_of_not hc h2
  rw [List.reverse_eq_nil_iff.mp he] at h3
  cases h3

theorem countSub_refBlock (r : ReferenceItem)
    (hid : countSub refStartMark r.id.data = 0)
    (htx : countSub refStartMark r.text.data = 0) :
    countSub refStartMark (refBlock r) = 1 := by
  have hp : refStartMark ≠ [] := by decide
  unfold refBlock
  rw [countSub_append_lastB refStartMark hp "\n---REFERENCE_START---\nID: ".data _ (by decide),
    countSub_append_keepB refStartMark hp r.id.data _ (by rfl),
    countSub_append_lastB refStartMark hp "\nSOURCE_TYPE: ".data _ (by decide),
    countSub_append_keepB refStartMark hp (sourceTypeStr r.sourceType) _ (by rfl),
    countSub_append_lastB refStartMark hp "\nTEXT:\n".data _ (by decide),
    countSub_append_keepB refStartMark hp r.text.data _ (by rfl),
    hid, htx]
  have hst : countSub refStartMark (sourceTypeStr r.sourceType) = 0 := by
    cases r.sourceType <;> decide
  rw [hst]
  decide

theorem countSub_formattedReferences (references : List ReferenceItem)
    (h : ∀ r ∈ references, countSub refStartMark r.id.data = 0
          ∧ countSub refStartMark r.text.data = 0) :
    countSub refStartMark (formattedReferences references)
      = references.length := by
  have hp : refStartMark ≠ [] := by decide
  induction references with
  | nil => rfl
  | cons r rs ih =>
      have hr := h r (List.mem_cons_self r rs)
      have hb := countSub_refBlock r hr.1 hr.2
      cases rs with
      | nil =>
          show countSub refStartMark (refBlock r) = 1
          exact hb
      | cons r2 rs2 =>
          have ih2 := ih (fun x hx => h x (List.mem_cons_of_mem _ hx))
          have hshape : formattedReferences (r :: r2 :: rs2)
              = refBlock r ++ ("\n".data
                  ++ sepJoin "\n".data (List.map refBlock (r2 :: rs2))) := by
            show sepJoin "\n".data (refBlock r :: refBlock r2 :: List.map refBlock rs2)
              = _
            rw [sepJoin]
            simp [List.append_assoc]
          rw [hshape,
            countSub_append_keepB refStartMark hp (refBlock r) _ (by rfl),
            countSub_append_lastB refStartMark hp "\n".data _ (by decide),
            hb]
          have hc0 : countSub refStartMark "\n".data = 0 := by decide
          have ih2s : countSub refStartMark
              (sepJoin "\n".data (List.map refBlock (r2 :: rs2)))
              = (r2 :: rs2).length := ih2
          rw [hc0, ih2s]
          simp [Nat.add_comm]

theorem infix_sepJoin (sep : List Char) :
    ∀ (xs : List (List Char)) (x : List Char), x ∈ xs → x <:+: sepJoin sep xs
  | [], x, h => absurd h (List.not_mem_nil x)
  | [y], x, h => by
      rcases List.mem_singleton.mp h with rfl
      exact List.infix_rfl
  | y :: z :: zs, x, h => by
      rcases List.mem_cons.mp h with rfl | hmem
      · exact ⟨[], sep ++ sepJoin sep (z :: zs), by simp [sepJoin]⟩
      · rcases infix_sepJoin sep (z :: zs) x hmem with ⟨s, t, hst⟩
        exact ⟨y ++ sep ++ s, t, by simp [sepJoin, ← hst]⟩

/-- C6 counterexample: a single reference whose text itself contains the
delimiter produces a references section with 2 occurrences of the
reference-start delimiter, not 1. -/
theorem formattedReferences_claim_cex :
    countSub refStartMark
        (refsSection [⟨"REF-001", SourceType.paper, "---REFERENCE_START---", true⟩])
      = 2
    ∧ ([⟨"REF-001", SourceType.paper, "---REFERENCE_START---", true⟩]
        : List ReferenceItem).length = 1 := by
  constructor
  · decide
  · rfl

/-- C6 (amended): for every list of N reference records whose id and text
fields do not themselves contain the reference-start delimiter, the
references section of the prompt contains exactly N occurrences of
"---REFERENCE_START---" (an empty list produces the placeholder text with
zero occurrences); moreover each reference's id, serialized source type and
text appear inside its block, and each block appears inside the serialized
section. -/
theorem formattedReferences_spec (references : List ReferenceItem)
    (h : ∀ r ∈ references, countSub refStartMark r.id.data = 0
          ∧ countSub refStartMark r.text.data = 0) :
    countSub refStartMark (refsSection references) = references.length
    ∧ ∀ r ∈ references,
        r.id.data <:+: refBlock r
        ∧ sourceTypeStr r.sourceType <:+: refBlock r
        ∧ r.text.data <:+: refBlock r
        ∧ refBlock r <:+: formattedReferences references := by
  constructor
  · cases references with
    | nil => decide
    | cons r rs =>
        have hdash : ('-' : Char) ∈ formattedReferences (r :: rs) := by
          have hblock : ('-' : Char) ∈ refBlock r :=
            List.mem_append.mpr (Or.inl (by decide))
          cases rs with
          | nil => exact hblock
          | cons r2 rs2 =>
              show ('-' : Char) ∈
                refBlock r ++ "\n".data
                  ++ sepJoin "\n".data (refBlock r2 :: List.map refBlock rs2)
              exact List.mem_append.mpr (Or.inl (List.mem_append.mpr (Or.inl hblock)))
        have hne : trimChars (formattedReferences (r :: rs)) ≠ [] :=
          trimChars_ne_nil (by decide) hdash
        rw [refsSection, if_neg hne]
        exact countSub_formattedReferences (r :: rs) h
  · intro r hr
    refine ⟨?_, ?_, ?_, ?_⟩
    · exact ⟨"\n---REFERENCE_START---\nID: ".data,
        "\nSOURCE_TYPE: ".data ++ (sourceTypeStr r.sourceType
          ++ ("\nTEXT:\n".data ++ (r.text.data ++ "\n---REFERENCE_END---\n".data))),
        by simp [refBlock]⟩
    · exact ⟨"\n---REFERENCE_START---\nID: ".data ++ r.id.data
          ++ "\nSOURCE_TYPE: ".data,
        "\nTEXT:\n".data ++ (r.text.data ++ "\n---REFERENCE_END---\n".data),
        by simp [refBlock]⟩
    · exact ⟨"\n---REFERENCE_START---\nID: ".data ++ r.id.data
          ++ "\nSOURCE_TYPE: ".data ++ sourceTypeStr r.sourceType
          ++ "\nTEXT:\n".data,
        "\n---REFERENCE_END---\n".data,
        by simp [refBlock]⟩
    · exact infix_sepJoin "\n".data (references.map refBlock) (refBlock r)
        (List.mem_map_of_mem refBlock hr)

/-- C6 witness: one delimiter-free reference yields exactly one block. -/
theorem formattedReferences_spec_witness :
    (∀ r ∈ ([⟨"REF-001", SourceType.paper, "hello world", true⟩]
        : List ReferenceItem),
      countSub refStartMark r.id.data = 0
        ∧ countSub refStartMark r.text.data = 0)
    ∧ countSub refStartMark
        (refsSection [⟨"REF-001", SourceType.paper, "hello world", true⟩]) = 1 :=
  ⟨by decide,
   (formattedReferences_spec [⟨"REF-001", SourceType.paper, "hello world", true⟩]
      (by decide)).1⟩

/-! ## Model-response cleanup (services/geminiService.ts) -/

/-- Left-to-right global removal of a pattern, restarting after each match —
the semantics of `String.replace(/pat/g, '')`.  `patAt l` decides whether the
pattern (of length `n + 1`) starts at the head of `l`. -/
def stripAt (n : Nat) (patAt : List Char → Bool) : List Char → List Char
  | [] => []
  | c :: cs =>
      if patAt (c :: cs) then stripAt n patAt (cs.drop n)
      else c :: stripAt n patAt cs
termination_by l => l.length
decreasing_by
  all_goals simp [List.length_drop]
  omega

/-- The three-backtick fence pattern of the second `replace`. -/
def fence3At (l : List Char) : Bool :=
  l[0]? == some '\x60' && l[1]? == some '\x60' && l[2]? == some '\x60'

/-- The case-insensitive fenced-json pattern of the first `replace`. -/
def fenceJsonAt (l : List Char) : Bool :=
  fence3At l
    && (l[3]? == some 'j' || l[3]? == some 'J')
    && (l[4]? == some 's' || l[4]? == some 'S')
    && (l[5]? == some 'o' || l[5]? == some 'O')
    && (l[6]? == some 'n' || l[6]? == some 'N')

/-- `text.replace(/```json/gi, '')` -/
def stripFenceJson : List Char → List Char := stripAt 6 fenceJsonAt

/-- `text.replace(/```/g, '')` -/
def stripFence3 : List Char → List Char := stripAt 2 fence3At

/-- Both fence-removal passes, in source order. -/
def stripFences (l : List Char) : List Char :=
  stripFence3 (stripFenceJson l)

/-- JavaScript `indexOf` on characters. -/
def firstIdx (c : Char) : List Char → Option Nat
  | [] => none
  | x :: xs => if x == c then some 0 else (firstIdx c xs).map (· + 1)

/-- JavaScript `lastIndexOf` on characters. -/
def lastIdx (c : Char) : List Char → Option Nat
  | [] => none
  | x :: xs =>
      match lastIdx c xs with
      | some k => some (k + 1)
      | none => if x == c then some 0 else none

/-- The cleanup of the raw model text in `analyzePlagiarism`: strip the two
fence patterns, then slice from the first opening brace to the last closing
brace when the latter comes after the former. -/
def cleanResponse (l : List Char) : List Char :=
  let t := stripFences l
  match firstIdx '\x7b' t, lastIdx '\x7d' t with
  | some i, some j => if i < j then (t.drop i).take (j + 1 - i) else t
  | some _, none => t
  | none, _ => t

theorem getElem?_append_lt {α : Type} {a b : List α} {i : Nat} (h : i < a.length) :
    (a ++ b)[i]? = a[i]? := by
  rw [List.getElem?_append]
  rw [if_pos h]

theorem stripAt_sublist (n : Nat) (patAt : List Char → Bool) :
    ∀ l : List Char, List.Sublist (stripAt n patAt l) l
  | [] => by simp [stripAt]
  | c :: cs => by
      by_cases h : patAt (c :: cs) = true
      · rw [stripAt, if_pos h]
        exact ((stripAt_sublist n patAt (cs.drop n)).trans
          (List.drop_sublist n cs)).trans (List.sublist_cons_self c cs)
      · rw [stripAt, if_neg h]
        exact List.Sublist.cons₂ c (stripAt_sublist n patAt cs)
termination_by l => l.length
decreasing_by
  all_goals simp [List.length_drop]
  omega

/-- Splitting a left-to-right global replace at a boundary the pattern cannot
cross: the right part starts with an opening brace, which occurs in neither
fence pattern. -/
theorem stripAt_append (n : Nat) (patAt : List Char → Bool)
    (hsplit : ∀ a b : List Char, b[0]? = some '\x7b' → patAt (a ++ b) = true →
        n + 1 ≤ a.length ∧ patAt a = true)
    (hext : ∀ a b : List Char, patAt a = true → patAt (a ++ b) = true)
    (b : List Char) (hb : b[0]? = some '\x7b') :
    ∀ l : List Char,
      stripAt n patAt (l ++ b) = stripAt n patAt l ++ stripAt n patAt b
  | [] => by simp [stripAt]
  | c :: cs => by
      by_cases h : patAt ((c :: cs) ++ b) = true
      · obtain ⟨hlen, hpa⟩ := hsplit (c :: cs) b hb h
        have h' : patAt (c :: (cs ++ b)) = true := h
        have hn : n ≤ cs.length := by simpa using hlen
        have hdrop : (cs ++ b).drop n = cs.drop n ++ b := by
          rw [List.drop_append_eq_append_drop, Nat.sub_eq_zero_of_le hn, List.drop_zero]
        rw [List.cons_append, stripAt, if_pos h', hdrop,
          stripAt_append n patAt hsplit hext b hb (cs.drop n),
          stripAt, if_pos hpa]
      · have hpa : patAt (c :: cs) = false := by
          cases hq : patAt (c :: cs)
          · rfl
          · exact absurd (hext _ b hq) h
        have h' : ¬ patAt (c :: (cs ++ b)) = true := h
        rw [List.cons_append, stripAt, if_neg h',
          stripAt_append n patAt hsplit hext b hb cs,
          stripAt, if_neg (by simp [hpa])]
        rfl
termination_by l => l.length
decreasing_by
  all_goals simp [List.length_drop]
  omega

/-- A backtick-free left part passes through both fence removals
unchanged. -/
theorem stripAt_append_clean (n : Nat) (patAt : List Char → Bool)
    (hhead : ∀ (x : Char) (l : List Char), x ≠ '\x60' → patAt (x :: l) = false)
    (b : List Char) :
    ∀ a : List Char, (∀ c ∈ a, c ≠ '\x60') →
      stripAt n patAt (a ++ b) = a ++ stripAt n patAt b := by
  intro a
  induction a with
  | nil => intro _; simp
  | cons c cs ih =>
      intro ha
      have hc : c ≠ '\x60' := ha c (List.mem_cons_self c cs)
      rw [List.cons_append, stripAt,
        if_neg (by simp [hhead c (cs ++ b) hc]),
        ih (fun d hd => ha d (List.mem_cons_of_mem _ hd))]
      rfl

theorem fenceJsonAt_head (x : Char) (l : List Char) (hx : x ≠ '\x60') :
    fenceJsonAt (x :: l) = false := by
  simp [fenceJsonAt, fence3At, hx]

theorem fence3At_head (x : Char) (l : List Char) (hx : x ≠ '\x60') :
    fence3At (x :: l) = false := by
  simp [fence3At, hx]

theorem fence3At_ext (a b : List Char) (h : fence3At a = true) :
    fence3At (a ++ b) = true := by
  simp only [fence3At, Bool.and_eq_true, beq_iff_eq] at h ⊢
  obtain ⟨⟨h0, h1⟩, h2⟩ := h
  have hlen : 3 ≤ a.length := by
    rcases List.getElem?_eq_some.mp h2 with ⟨hl, _⟩
    omega
  exact ⟨⟨by rw [getElem?_append_lt (by omega)]; exact h0,
    by rw [getElem?_append_lt (by omega)]; exact h1⟩,
    by rw [getElem?_append_lt (by omega)]; exact h2⟩

theorem fenceJsonAt_ext (a b : List Char) (h : fenceJsonAt a = true) :
    fenceJsonAt (a ++ b) = true := by
  simp only [fenceJsonAt, fence3At, Bool.and_eq_true, Bool.or_eq_true, beq_iff_eq] at h ⊢
  obtain ⟨⟨⟨⟨h012, h3⟩, h4⟩, h5⟩, h6⟩ := h
  have hlen : 7 ≤ a.length := by
    rcases h6 with h | h <;>
      · rcases List.getElem?_eq_some.mp h with ⟨hl, _⟩
        omega
  have hcopy : ∀ i, i < 7 → (a ++ b)[i]? = a[i]? := fun i hi =>
    getElem?_append_lt (by omega)
  refine ⟨⟨⟨⟨?_, ?_⟩, ?_⟩, ?_⟩, ?_⟩
  · obtain ⟨⟨h0, h1⟩, h2⟩ := h012
    exact ⟨⟨by rw [hcopy 0 (by omega)]; exact h0,
      by rw [hcopy 1 (by omega)]; exact h1⟩,
      by rw [hcopy 2 (by omega)]; exact h2⟩
  · rcases h3 with h | h
    · exact Or.inl (by rw [hcopy 3 (by omega)]; exact h)
    · exact Or.inr (by rw [hcopy 3 (by omega)]; exact h)
  · rcases h4 with h | h
    · exact Or.inl (by rw [hcopy 4 (by omega)]; exact h)
    · exact Or.inr (by rw [hcopy 4 (by omega)]; exact h)
  · rcases h5 with h | h
    · exact Or.inl (by rw [hcopy 5 (by omega)]; exact h)
    · exact Or.inr (by rw [hcopy 5 (by omega)]; exact h)
  · rcases h6 with h | h
    · exact Or.inl (by rw [hcopy 6 (by omega)]; exact h)
    · exact Or.inr (by rw [hcopy 6 (by omega)]; exact h)

theorem fence3At_split (a b : List Char) (hb : b[0]? = some '\x7b')
    (h : fence3At (a ++ b) = true) : 3 ≤ a.length ∧ fence3At a = true := by
  simp only [fence3At, Bool.and_eq_true, beq_iff_eq] at h
  obtain ⟨⟨h0, h1⟩, h2⟩ := h
  have hba : ∀ i, a.length = i → (a ++ b)[i]? = some '\x7b' := by
    intro i hi
    subst hi
    rw [List.getElem?_append_right (Nat.le_refl _)]
    simpa using hb
  have hlen : 3 ≤ a.length := by
    by_contra hlt
    push_neg at hlt
    set k := a.length with hk
    interval_cases k
    · exact absurd ((hba 0 rfl).symm.trans h0) (by decide)
    · exact absurd ((hba 1 rfl).symm.trans h1) (by decide)
    · exact absurd ((hba 2 rfl).symm.trans h2) (by decide)
  refine ⟨hlen, ?_⟩
  simp only [fence3At, Bool.and_eq_true, beq_iff_eq]
  exact ⟨⟨by rw [← getElem?_append_lt (show 0 < a.length by omega)]; exact h0,
    by rw [← getElem?_append_lt (show 1 < a.length by omega)]; exact h1⟩,
    by rw [← getElem?_append_lt (show 2 < a.length by omega)]; exact h2⟩

theorem fenceJsonAt_split (a b : List Char) (hb : b[0]? = some '\x7b')
    (h : fenceJsonAt (a ++ b) = true) : 7 ≤ a.length ∧ fenceJsonAt a = true := by
  simp only [fenceJsonAt, fence3At, Bool.and_eq_true, Bool.or_eq_true,
    beq_iff_eq] at h
  obtain ⟨⟨⟨⟨⟨⟨h0, h1⟩, h2⟩, h3⟩, h4⟩, h5⟩, h6⟩ := h
  have hba : ∀ i, a.length = i → (a ++ b)[i]? = some '\x7b' := by
    intro i hi
    subst hi
    rw [List.getElem?_append_right (Nat.le_refl _)]
    simpa using hb
  have hlen : 7 ≤ a.length := by
    by_contra hlt
    push_neg at hlt
    set k := a.length with hk
    interval_cases k
    · exact absurd ((hba 0 rfl).symm.trans h0) (by decide)
    · exact absurd ((hba 1 rfl).symm.trans h1) (by decide)
    · exact absurd ((hba 2 rfl).symm.trans h2) (by decide)
    · rcases h3 with h | h <;> exact absurd ((hba 3 rfl).symm.trans h) (by decide)
    · rcases h4 with h | h <;> exact absurd ((hba 4 rfl).symm.trans h) (by decide)
    · rcases h5 with h | h <;> exact absurd ((hba 5 rfl).symm.trans h) (by decide)
    · rcases h6 with h | h <;> exact absurd ((hba 6 rfl).symm.trans h) (by decide)
  refine ⟨hlen, ?_⟩
  simp only [fenceJsonAt, fence3At, Bool.and_eq_true, Bool.or_eq_true, beq_iff_eq]
  have hcopy : ∀ i, i < 7 → (a ++ b)[i]? = a[i]? := fun i hi =>
    getElem?_append_lt (by omega)
  refine ⟨⟨⟨⟨⟨⟨?_, ?_⟩, ?_⟩, ?_⟩, ?_⟩, ?_⟩, ?_⟩
  · rw [← hcopy 0 (by omega)]; exact h0
  · rw [← hcopy 1 (by omega)]; exact h1
  · rw [← hcopy 2 (by omega)]; exact h2
  · rcases h3 with h | h
    · exact Or.inl (by rw [← hcopy 3 (by omega)]; exact h)
    · exact Or.inr (by rw [← hcopy 3 (by omega)]; exact h)
  · rcases h4 with h | h
    · exact Or.inl (by rw [← hcopy 4 (by omega)]; exact h)
    · exact Or.inr (by rw [← hcopy 4 (by omega)]; exact h)
  · rcases h5 with h | h
    · exact Or.inl (by rw [← hcopy 5 (by omega)]; exact h)
    · exact Or.inr (by rw [← hcopy 5 (by omega)]; exact h)
  · rcases h6 with h | h
    · exact Or.inl (by rw [← hcopy 6 (by omega)]; exact h)
    · exact Or.inr (by rw [← hcopy 6 (by omega)]; exact h)

theorem firstIdx_spec (c : Char) :
    ∀ (l : List Char) (i : Nat), firstIdx c l = some i → l[i]? = some c
  | [], i, h => by simp [firstIdx] at h
  | x :: xs, i, h => by
      rw [firstIdx] at h
      by_cases hx : x == c
      · rw [if_pos hx] at h
        cases h
        have hxc : x = c := beq_iff_eq.mp hx
        simp [hxc]
      · rw [if_neg hx] at h
        cases hfi : firstIdx c xs with
        | none => rw [hfi] at h; simp at h
        | some k =>
            rw [hfi] at h
            simp at h
            subst h
            simpa using firstIdx_spec c xs k hfi

theorem firstIdx_min (c : Char) :
    ∀ (l : List Char) (n : Nat), l[n]? = some c →
      ∃ i, firstIdx c l = some i ∧ i ≤ n
  | [], n, h => by simp at h
  | x :: xs, n, h => by
      rw [firstIdx]
      by_cases hx : x == c
      · exact ⟨0, by rw [if_pos hx], Nat.zero_le n⟩
      · cases n with
        | zero =>
            simp only [List.getElem?_cons_zero, Option.some.injEq] at h
            exact absurd (by simp [h] : (x == c) = true) hx
        | succ m =>
            obtain ⟨i, hi, him⟩ := firstIdx_min c xs m (by simpa using h)
            exact ⟨i + 1, by rw [if_neg hx, hi]; rfl, by omega⟩

theorem lastIdx_spec (c : Char) :
    ∀ (l : List Char) (j : Nat), lastIdx c l = some j → l[j]? = some c
  | [], j, h => by simp [lastIdx] at h
  | x :: xs, j, h => by
      rw [lastIdx] at h
      cases hl : lastIdx c xs with
      | some k =>
          rw [hl] at h
          cases h
          simpa using lastIdx_spec c xs k hl
      | none =>
          rw [hl] at h
          by_cases hx : x == c
          · rw [if_pos hx] at h
            cases h
            simpa using (beq_iff_eq.mp hx)
          · rw [if_neg hx] at h
            cases h

theorem lastIdx_max (c : Char) :
    ∀ (l : List Char) (n : Nat), l[n]? = some c →
      ∃ j, lastIdx c l = some j ∧ n ≤ j
  | [], n, h => by simp at h
  | x :: xs, n, h => by
      rw [lastIdx]
      cases n with
      | zero =>
          simp only [List.getElem?_cons_zero, Option.some.injEq] at h
          cases hl : lastIdx c xs with
          | some k => exact ⟨k + 1, rfl, Nat.zero_le _⟩
          | none => exact ⟨0, by rw [if_pos (by simp [h])], Nat.le_refl 0⟩
      | succ m =>
          obtain ⟨j, hj, hmj⟩ := lastIdx_max c xs m (by simpa using h)
          rw [hj]
          exact ⟨j + 1, rfl, by omega⟩

theorem lastIdx_none (c : Char) :
    ∀ l : List Char, (∀ x ∈ l, x ≠ c) → lastIdx c l = none
  | [], _ => rfl
  | x :: xs, h => by
      rw [lastIdx, lastIdx_none c xs (fun y hy => h y (List.mem_cons_of_mem _ hy))]
      rw [if_neg (by simpa using h x (List.mem_cons_self x xs))]

theorem firstIdx_append_of_not (c : Char) :
    ∀ a b : List Char, (∀ x ∈ a, x ≠ c) →
      firstIdx c (a ++ b) = (firstIdx c b).map (· + a.length)
  | [], b, _ => by
      cases h : firstIdx c b <;> simp [h]
  | x :: xs, b, ha => by
      rw [List.cons_append, firstIdx,
        if_neg (by simpa using ha x (List.mem_cons_self x xs)),
        firstIdx_append_of_not c xs b (fun y hy => ha y (List.mem_cons_of_mem _ hy))]
      cases h : firstIdx c b <;> simp [h]
      omega

theorem lastIdx_append (c : Char) :
    ∀ a b : List Char, lastIdx c (a ++ b)
      = match lastIdx c b with
        | some k => some (a.length + k)
        | none => lastIdx c a
  | [], b => by cases h : lastIdx c b <;> simp [h, lastIdx]
  | x :: xs, b => by
      have ih := lastIdx_append c xs b
      cases hb : lastIdx c b with
      | some k =>
          rw [hb] at ih
          rw [List.cons_append, lastIdx, ih]
          simp only [List.length_cons, Option.some.injEq]
          omega
      | none =>
          rw [hb] at ih
          rw [List.cons_append, lastIdx, ih, lastIdx]

theorem lastIdx_getLast (c : Char) :
    ∀ l : List Char, l.getLast? = some c → lastIdx c l = some (l.length - 1)
  | [], h => by simp at h
  | [x], h => by
      simp only [List.getLast?_singleton, Option.some.injEq] at h
      simp [lastIdx, h]
  | x :: y :: ys, h => by
      rw [List.getLast?_cons_cons] at h
      rw [lastIdx, lastIdx_getLast c (y :: ys) h]
      simp

theorem stripFenceJson_append (b : List Char) (hb : b[0]? = some '\x7b')
    (l : List Char) :
    stripFenceJson (l ++ b) = stripFenceJson l ++ stripFenceJson b :=
  stripAt_append 6 fenceJsonAt fenceJsonAt_split fenceJsonAt_ext b hb l

theorem stripFence3_append (b : List Char) (hb : b[0]? = some '\x7b')
    (l : List Char) :
    stripFence3 (l ++ b) = stripFence3 l ++ stripFence3 b :=
  stripAt_append 2 fence3At fence3At_split fence3At_ext b hb l

theorem stripFenceJson_clean (a b : List Char) (ha : ∀ c ∈ a, c ≠ '\x60') :
    stripFenceJson (a ++ b) = a ++ stripFenceJson b :=
  stripAt_append_clean 6 fenceJsonAt fenceJsonAt_head b a ha

theorem stripFence3_clean (a b : List Char) (ha : ∀ c ∈ a, c ≠ '\x60') :
    stripFence3 (a ++ b) = a ++ stripFence3 b :=
  stripAt_append_clean 2 fence3At fence3At_head b a ha

theorem mem_stripFences {c : Char} {l : List Char} (h : c ∈ stripFences l) :
    c ∈ l :=
  (stripAt_sublist 6 fenceJsonAt l).subset
    ((stripAt_sublist 2 fence3At (stripFenceJson l)).subset h)

/-- Fence removal around a backtick-free segment that starts with an opening
brace splits cleanly: the prose parts are processed independently and the
segment passes through unchanged. -/
theorem stripFences_wrapped (p j s : List Char)
    (hjo : j[0]? = some '\x7b')
    (hjt : ∀ c ∈ j, c ≠ '\x60') :
    stripFences (p ++ j ++ s) = stripFences p ++ (j ++ stripFences s) := by
  have hjlen : 0 < j.length := by
    cases j
    · simp at hjo
    · simp
  have hjs0 : (j ++ s)[0]? = some '\x7b' := by
    rw [getElem?_append_lt hjlen]; exact hjo
  unfold stripFences
  rw [List.append_assoc,
    stripFenceJson_append (j ++ s) hjs0 p,
    stripFenceJson_clean j s hjt]
  have hb2 : (j ++ stripFenceJson s)[0]? = some '\x7b' := by
    rw [getElem?_append_lt hjlen]; exact hjo
  rw [stripFence3_append (j ++ stripFenceJson s) hb2 (stripFenceJson p),
    stripFence3_clean j (stripFenceJson s) hjt]

/-- C1: after the code-fence markers are removed, the cleanup slices from the
first opening brace to the last closing brace exactly when some opening brace
occurs before some closing brace, and otherwise parsing is attempted on the
full cleaned text (the cleaned text is returned unsliced); consequently, for
model output wrapping a fence-free JSON object (first character an opening
brace, last character a closing brace) in code fences and/or brace-free
prose, the cleanup returns exactly the embedded object, so parsing the
cleaned text equals parsing the embedded JSON object alone. -/
theorem cleanResponse_spec (p j s : List Char)
    (hp : ∀ c ∈ p, c ≠ '\x7b' ∧ c ≠ '\x7d')
    (hs : ∀ c ∈ s, c ≠ '\x7b' ∧ c ≠ '\x7d')
    (hjo : j[0]? = some '\x7b')
    (hjc : j.getLast? = some '\x7d')
    (hjt : ∀ c ∈ j, c ≠ '\x60') :
    cleanResponse (p ++ j ++ s) = j
    ∧ (∀ t : List Char,
        (∀ (i k : Nat), i < k → ¬((stripFences t)[i]? = some '\x7b'
            ∧ (stripFences t)[k]? = some '\x7d')) →
        cleanResponse t = stripFences t)
    ∧ (∀ (t : List Char) (i k : Nat), i < k →
        (stripFences t)[i]? = some '\x7b' →
        (stripFences t)[k]? = some '\x7d' →
        ∃ a b, firstIdx '\x7b' (stripFences t) = some a
          ∧ lastIdx '\x7d' (stripFences t) = some b ∧ a < b
          ∧ cleanResponse t = ((stripFences t).drop a).take (b + 1 - a)) := by
  refine ⟨?_, ?_, ?_⟩
  · have hP : ∀ c ∈ stripFences p, c ≠ '\x7b' ∧ c ≠ '\x7d' :=
      fun c hc => hp c (mem_stripFences hc)
    have hS : ∀ c ∈ stripFences s, c ≠ '\x7b' ∧ c ≠ '\x7d' :=
      fun c hc => hs c (mem_stripFences hc)
    have hsw := stripFences_wrapped p j s hjo hjt
    have hjlen2 : 2 ≤ j.length := by
      cases j with
      | nil => simp at hjo
      | cons cj j2 =>
          cases j2 with
          | nil =>
              exfalso
              have h1 : cj = '\x7b' := by simpa using hjo
              have h2 : cj = '\x7d' := by simpa using hjc
              rw [h1] at h2
              exact absurd h2 (by decide)
          | cons d j3 => simp
    have hfi : firstIdx '\x7b' (stripFences (p ++ j ++ s))
        = some (stripFences p).length := by
      rw [hsw,
        firstIdx_append_of_not '\x7b' (stripFences p) (j ++ stripFences s)
          (fun x hx => (hP x hx).1)]
      cases j with
      | nil => simp at hjo
      | cons cj j2 =>
          have h1 : cj = '\x7b' := by simpa using hjo
          subst h1
          rw [List.cons_append, firstIdx, if_pos (by simp)]
          simp
    have hli : lastIdx '\x7d' (stripFences (p ++ j ++ s))
        = some ((stripFences p).length + (j.length - 1)) := by
      rw [hsw,
        lastIdx_append '\x7d' (stripFences p) (j ++ stripFences s),
        lastIdx_append '\x7d' j (stripFences s),
        lastIdx_none '\x7d' (stripFences s) (fun x hx => (hS x hx).2),
        lastIdx_getLast '\x7d' j hjc]
    have hslice : cleanResponse (p ++ j ++ s)
        = ((stripFences (p ++ j ++ s)).drop (stripFences p).length).take
            ((stripFences p).length + (j.length - 1) + 1 - (stripFences p).length) := by
      show (match firstIdx '\x7b' (stripFences (p ++ j ++ s)),
              lastIdx '\x7d' (stripFences (p ++ j ++ s)) with
            | some i, some k =>
                if i < k
                then ((stripFences (p ++ j ++ s)).drop i).take (k + 1 - i)
                else stripFences (p ++ j ++ s)
            | some _, none => stripFences (p ++ j ++ s)
            | none, _ => stripFences (p ++ j ++ s)) = _
      rw [hfi, hli]
      show (if (stripFences p).length
              < (stripFences p).length + (j.length - 1)
            then ((stripFences (p ++ j ++ s)).drop (stripFences p).length).take
              ((stripFences p).length + (j.length - 1) + 1 - (stripFences p).length)
            else stripFences (p ++ j ++ s)) = _
      rw [if_pos (by omega)]
    rw [hslice, hsw, List.drop_left]
    have harith : (stripFences p).length + (j.length - 1) + 1
        - (stripFences p).length = j.length := by omega
    rw [harith, List.take_left]
  · intro t hno
    show (match firstIdx '\x7b' (stripFences t), lastIdx '\x7d' (stripFences t) with
          | some i, some k =>
              if i < k
              then ((stripFences t).drop i).take (k + 1 - i)
              else stripFences t
          | some _, none => stripFences t
          | none, _ => stripFences t) = stripFences t
    cases hf : firstIdx '\x7b' (stripFences t) with
    | none => rfl
    | some i =>
        cases hl : lastIdx '\x7d' (stripFences t) with
        | none => rfl
        | some k =>
            by_cases hik : i < k
            · exact absurd ⟨firstIdx_spec '\x7b' _ i hf, lastIdx_spec '\x7d' _ k hl⟩
                (hno i k hik)
            · show (if i < k then ((stripFences t).drop i).take (k + 1 - i)
                    else stripFences t) = stripFences t
              rw [if_neg hik]
  · intro t i k hik hi hk
    obtain ⟨a, hfa, hai⟩ := firstIdx_min '\x7b' (stripFences t) i hi
    obtain ⟨b2, hlb, hkb⟩ := lastIdx_max '\x7d' (stripFences t) k hk
    refine ⟨a, b2, hfa, hlb, by omega, ?_⟩
    have heq : cleanResponse t
        = if a < b2 then ((stripFences t).drop a).take (b2 + 1 - a)
          else stripFences t := by
      show (match firstIdx '\x7b' (stripFences t), lastIdx '\x7d' (stripFences t) with
            | some i, some k =>
                if i < k
                then ((stripFences t).drop i).take (k + 1 - i)
                else stripFences t
            | some _, none => stripFences t
            | none, _ => stripFences t) = _
      rw [hfa, hlb]
    rw [heq, if_pos (show a < b2 by omega)]


/-- C1 witness: the spec's own example — a fenced JSON object with leading
prose — cleans to exactly the embedded object. -/
theorem cleanResponse_spec_witness :
    ((∀ c ∈ ("Sure! \x60\x60\x60json\n".data : List Char), c ≠ '\x7b' ∧ c ≠ '\x7d')
      ∧ (∀ c ∈ ("\n\x60\x60\x60".data : List Char), c ≠ '\x7b' ∧ c ≠ '\x7d')
      ∧ ("\x7b\"overall_plagiarism_risk\":10\x7d".data : List Char)[0]? = some '\x7b'
      ∧ ("\x7b\"overall_plagiarism_risk\":10\x7d".data : List Char).getLast? = some '\x7d'
      ∧ (∀ c ∈ ("\x7b\"overall_plagiarism_risk\":10\x7d".data : List Char), c ≠ '\x60'))
    ∧ cleanResponse ("Sure! \x60\x60\x60json\n".data
        ++ "\x7b\"overall_plagiarism_risk\":10\x7d".data ++ "\n\x60\x60\x60".data)
      = "\x7b\"overall_plagiarism_risk\":10\x7d".data :=
  ⟨⟨by decide, by decide, by decide, by decide, by decide⟩,
   (cleanResponse_spec "Sure! \x60\x60\x60json\n".data
      "\x7b\"overall_plagiarism_risk\":10\x7d".data "\n\x60\x60\x60".data
      (by decide) (by decide) (by decide) (by decide) (by decide)).1⟩

/-! ## Analysis client pipeline (services/geminiService.ts) -/

/-- `getClient` from geminiService.ts: reads the ambient API key at call
time and throws when it is absent or empty (JavaScript falsiness); the
constructed client is represented by the key it holds. -/
def getClient (apiKey : Option String) : Except String String :=
  match apiKey with
  | none => Except.error "API Key is missing"
  | some k => if k = "" then Except.error "API Key is missing" else Except.ok k

/-- The request configuration: `googleSearch` tool versus JSON response MIME
type, which the source treats as mutually exclusive. -/
structure RequestConfig where
  googleSearchTool : Bool
  responseMimeTypeJson : Bool
deriving DecidableEq, Repr

def requestConfig (enableWebSearch : Bool) : RequestConfig :=
  if enableWebSearch then ⟨true, false⟩ else ⟨false, true⟩

/-- What `generateContent` hands back: the optional raw text and the
optional grounding chunks of the first candidate. -/
structure GenResponse where
  text : Option (List Char)
  groundingChunks : Option (List GroundingChunk)

/-- The prompt assembled by `analyzePlagiarism`.  The fixed instructional
boilerplate of the template (which no claim concerns) is abbreviated to its
section heads; the interpolated data — document type, document text between
its sentinel markers, the references section, and the web-search instruction
block — appears exactly as in the source template. -/
def buildPrompt (documentText : List Char) (references : List ReferenceItem)
    (documentType : List Char) (enableWebSearch : Bool) : List Char :=
  "1. DOCUMENT_TYPE:\n".data ++ documentType
    ++ "\n\n2. GIVEN_DOCUMENT:\n<START_DOCUMENT>\n".data ++ documentText
    ++ "\n<END_DOCUMENT>\n\n3. REFERENCE_TEXTS:\n".data
    ++ refsSection references
    ++ (if enableWebSearch then "\n4. WEB CHECK INSTRUCTIONS:\n".data else [])

/-- Everything `analyzePlagiarism` does once the model has responded: check
the text for presence, clean it, parse it (via the external `JSON.parse`,
passed in as `parseJson`), and attach the deduplicated web sources when web
search was on and grounding chunks are present. -/
def handleModelText (α : Type) (parseJson : List Char → Option α)
    (enableWebSearch : Bool) (resp : GenResponse) :
    Except String (α × Option (List WebSource)) :=
  match resp.text with
  | none => Except.error "No response generated from AI"
  | some t =>
      if t = [] then Except.error "No response generated from AI"
      else
        match parseJson (cleanResponse t) with
        | none =>
            Except.error "Failed to parse analysis results. The AI response was not valid JSON."
        | some r =>
            if enableWebSearch then
              match resp.groundingChunks with
              | some chunks => Except.ok (r, some (computeWebSources chunks))
              | none => Except.ok (r, none)
            else Except.ok (r, none)

/-- `analyzePlagiarism` from geminiService.ts, parameterized by its external
collaborators: the ambient API key, the model endpoint `respond`, and
`JSON.parse`. -/
def analyzePlagiarism (α : Type)
    (apiKey : Option String)
    (respond : List Char → RequestConfig → GenResponse)
    (parseJson : List Char → Option α)
    (documentText : List Char) (references : List ReferenceItem)
    (documentType : List Char) (enableWebSearch : Bool) :
    Except String (α × Option (List WebSource)) :=
  match getClient apiKey with
  | Except.error e => Except.error e
  | Except.ok _ =>
      handleModelText α parseJson enableWebSearch
        (respond (buildPrompt documentText references documentType enableWebSearch)
          (requestConfig enableWebSearch))

/-- C7: when no API credential is configured (key absent, or empty and hence
falsy), `analyzePlagiarism` fails with the authentication error message and
the result does not depend on the model endpoint at all — no call is made;
the check runs per request: the very same call with a non-empty key present
proceeds to consult the model on the built prompt. -/
theorem analyzePlagiarism_auth (α : Type) (parseJson : List Char → Option α)
    (documentText : List Char) (references : List ReferenceItem)
    (documentType : List Char) (enableWebSearch : Bool) :
    (∀ apiKey, (apiKey = none ∨ apiKey = some "") →
      ∀ respond, analyzePlagiarism α apiKey respond parseJson
          documentText references documentType enableWebSearch
        = Except.error "API Key is missing")
    ∧ (∀ k : String, k ≠ "" → ∀ respond,
        analyzePlagiarism α (some k) respond parseJson
            documentText references documentType enableWebSearch
          = handleModelText α parseJson enableWebSearch
              (respond (buildPrompt documentText references documentType enableWebSearch)
                (requestConfig enableWebSearch))) := by
  constructor
  · rintro apiKey (rfl | rfl) respond
    · rfl
    · rfl
  · intro k hk respond
    have hg : getClient (some k) = Except.ok k := by
      show (if k = "" then Except.error "API Key is missing" else Except.ok k)
        = Except.ok k
      rw [if_neg hk]
    unfold analyzePlagiarism
    rw [hg]

/-- C7 witness: with no key configured, the call fails with the auth error
(for an arbitrary concrete model endpoint, showing no dependence on it). -/
theorem analyzePlagiarism_auth_witness :
    analyzePlagiarism Nat none (fun _ _ => ⟨none, none⟩) (fun _ => none)
        [] [] [] false
      = Except.error "API Key is missing" :=
  (analyzePlagiarism_auth Nat (fun _ => none) [] [] [] false).1
    none (Or.inl rfl) (fun _ _ => ⟨none, none⟩)
